import Mathlib

/-!
Shallow embedding of `lib/cf_estimate_impl.cc` (gr-fhss_utils `cf_estimate` block).

Modelling conventions:

* An IEEE `double`/`float` value is modelled as `DV := Option ℚ`: `some q` is a
  finite value with exact rational arithmetic (rounding is not modelled), `none`
  is a non-finite value (NaN or ±Inf).  Division by an exact zero produces a
  non-finite value, as in IEEE-754, and non-finite operands propagate.
* A `gr_complex` is a componentwise pair of such values (`CplxD`).
* PMT values are modelled by the small inductive `Pmt` covering the shapes the
  handler inspects (pair / c32vector / dict / anything else); metadata
  dictionaries map keys to numeric values, which is the only case the handler
  reads (`pmt::to_double`).
* External collaborators that are not part of this repository (the gnuradio FFT
  engine together with the Gaussian window and the magnitude-squared kernel,
  `std::sqrt`, `log10`, `std::exp`, and the cached window gains, which are all
  transcendental) are abstracted as an `Oracle` of unconstrained functions.
  Everything that `cf_estimate_impl.cc` itself computes is modelled concretely.
* `pdu_handler` is modelled as a function from the input PDU to the pair
  (messages published on the debug port, messages published on the out port).
* The arithmetic of lines 184-200 is modelled for bursts of at least
  `MIN_NFFTS = 4` samples.  For 1-3 samples the C++ converts a negative power
  to `size_t fftsize = 0` and then converts `floor(burst_size/0.0) = +Inf` to
  `size_t`, and for 0 samples it converts `floor(log2(0.0)) = -Inf` to `int`;
  both conversions are undefined behaviour, so theorems about the numeric path
  carry a `4 ≤ burst size` hypothesis.
-/

set_option maxHeartbeats 1000000

/-- A C `double`: `some q` = finite value, `none` = non-finite (NaN/Inf). -/
abbrev DV : Type := Option ℚ

def DV.add : DV → DV → DV
  | some a, some b => some (a + b)
  | _, _ => none

def DV.sub : DV → DV → DV
  | some a, some b => some (a - b)
  | _, _ => none

def DV.mul : DV → DV → DV
  | some a, some b => some (a * b)
  | _, _ => none

/-- IEEE division of finite values: a zero divisor gives a non-finite result
(`x/0` is ±Inf, `0/0` is NaN), otherwise the exact quotient. -/
def fdiv (a b : ℚ) : DV := if b = 0 then none else some (a / b)

def DV.div : DV → DV → DV
  | some a, some b => fdiv a b
  | _, _ => none

/-- IEEE `x != 0.0`: true for every nonzero finite value and for NaN/±Inf. -/
def DV.neZero : DV → Bool
  | some a => decide (a ≠ 0)
  | none => true

/-- Line 305, `noise_density_db != NAN`: an IEEE `!=` comparison with a NaN
operand is true for every other operand (including NaN itself), so this test
is identically true whatever `noise_density_db` holds. -/
def ieeeNeNan (_ : DV) : Bool := true

/-- `gr_complex`, componentwise possibly non-finite. -/
abbrev CplxD : Type := DV × DV

def cmulD (a b : CplxD) : CplxD :=
  (DV.sub (DV.mul a.1 b.1) (DV.mul a.2 b.2),
   DV.add (DV.mul a.1 b.2) (DV.mul a.2 b.1))

def cOne : CplxD := (some 1, some 0)

/-- `gr::blocks::rotator::rotateN` (external to this repository): each output
sample is the input sample times the running phase, and the phase is then
multiplied by the increment.  The periodic re-normalisation of the phase is a
floating-point-drift control and is omitted in exact arithmetic. -/
def rotateN (incr : CplxD) : CplxD → List CplxD → List CplxD
  | _, [] => []
  | phase, x :: xs => cmulD x phase :: rotateN incr (cmulD phase incr) xs

/-- Metadata dictionary keys used by the handler; `extra n` stands for any
other key an upstream block may have attached. -/
inductive MKey
  | center_frequency
  | relative_frequency
  | sample_rate
  | noise_density
  | bandwidth
  | pwr_db
  | snr_db
  | extra (n : ℕ)
  deriving DecidableEq

/-- A PMT dict restricted to numeric values, the only case the handler reads. -/
abbrev Dict : Type := List (MKey × DV)

def dict_find (m : Dict) (k : MKey) : Option DV :=
  (m.find? (fun e => e.1 = k)).map (fun e => e.2)

def dict_has_key (m : Dict) (k : MKey) : Bool :=
  m.any (fun e => e.1 = k)

def dict_ref (m : Dict) (k : MKey) (dflt : DV) : DV :=
  (dict_find m k).getD dflt

def dict_del (m : Dict) (k : MKey) : Dict :=
  m.filter (fun e => ¬ e.1 = k)

/-- `pmt::dict_add`: new dict with the binding for `k` replaced by `v`. -/
def dict_add (m : Dict) (k : MKey) (v : DV) : Dict :=
  (k, v) :: dict_del m k

/-- The PMT shapes `pdu_handler` distinguishes (lines 134-150). -/
inductive Pmt
  | pair (car cdr : Pmt)
  | c32 (v : List CplxD)
  | dict (m : Dict)
  | other
  deriving DecidableEq

/-- The three estimation methods (`cf_method`: RMS = 0, HALF_POWER = 1,
COERCE = 2); any other integer selects the final `else` branch at line 273,
which behaves exactly like COERCE. -/
inductive Method
  | rms
  | half_power
  | coerce
  deriving DecidableEq

/-- Block configuration: `d_method` and `d_channel_freqs`. -/
structure Cfg where
  method : Method
  channel_freqs : List ℚ

/-- External collaborators abstracted as unconstrained functions:
`fftMag2 p seg` is the magnitude-squared spectrum of one windowed segment
(window, FFT engine and volk kernels are gnuradio code, and the Gaussian
window is transcendental); `sqrtD`, `log10D`, `expRot` model `std::sqrt`,
`log10` and `exp(gr_complex(0, -shift·2π))` on finite inputs; `mag2Gain p`
is the cached `d_fft_mag2_gains[p]` (transcendental window RMS gain). -/
structure Oracle where
  fftMag2 : ℕ → List CplxD → List ℚ
  sqrtD : ℚ → DV
  log10D : ℚ → DV
  expRot : DV → CplxD
  mag2Gain : ℕ → ℚ

/-- Fuel-driven `⌊log₂⌋` so that the kernel can evaluate it; `log2fuel n n`
computes `⌊log₂ n⌋` for `n ≥ 1` (see `log2floor_spec`). -/
def log2fuel : ℕ → ℕ → ℕ
  | 0, _ => 0
  | fuel + 1, n => if 2 ≤ n then log2fuel fuel (n / 2) + 1 else 0

def log2floor (n : ℕ) : ℕ := log2fuel n n

/-- Lines 22-24. -/
def MAX_FFT_POWER : ℕ := 8
def MIN_FFT_POWER : ℕ := 5
def MIN_NFFTS : ℕ := 4

/-- Line 184: `fftpower = floor(log2(burst_size / MIN_NFFTS))`.  For `N ≥ 4`
the real-valued expression equals `⌊log₂ (N / 4)⌋` with natural division,
because `2^k ≤ N/4` iff `2^k ≤ ⌊N/4⌋`. -/
def fftpowerOf (N : ℕ) : ℕ := log2floor (N / MIN_NFFTS)

/-- Lines 186-190: the power is clamped from above at `MAX_FFT_POWER` only;
there is no corresponding clamp from below at `MIN_FFT_POWER`. -/
def fftpowerClamped (N : ℕ) : ℕ :=
  if MAX_FFT_POWER < fftpowerOf N then MAX_FFT_POWER else fftpowerOf N

/-- Line 192. -/
def fftsizeOf (N : ℕ) : ℕ := 2 ^ fftpowerClamped N

/-- Line 193. -/
def nfftsOf (N : ℕ) : ℕ := N / fftsizeOf N

/-- Line 194. -/
def copySizeOf (N : ℕ) : ℕ := nfftsOf N * fftsizeOf N

/-- Line 200: start of the centered analysed region. -/
def analysisOffsetOf (N : ℕ) : ℕ := (N - copySizeOf N) / 2

/-- Lines 204-235: for each of the `nffts` segments of the centered region,
window+FFT+|·|² (external, via `g.fftMag2`), accumulate bin-wise, then
normalise by `1/nffts` and fft-shift by rotating `fftsize/2` bins. -/
def mags2Of (g : Oracle) (data : List CplxD) : List ℚ :=
  let N := data.length
  let fsz := fftsizeOf N
  let acc := (List.range (nfftsOf N)).foldl
    (fun acc ii =>
      List.zipWith (· + ·) acc
        (g.fftMag2 (fftpowerClamped N) ((data.drop (analysisOffsetOf N + ii * fsz)).take fsz)))
    (List.replicate fsz 0)
  (acc.map (fun x => x * (1 / (nfftsOf N : ℚ)))).rotate (fsz / 2)

/-- Lines 239-245: linear frequency axis from `cf - fs/2` with step `fs/n`. -/
def freqAxis (cf fs : ℚ) (n : ℕ) : List ℚ :=
  (List.range n).map (fun (i : ℕ) => (cf - fs / 2) + (fs / (n : ℚ)) * (i : ℚ))

/-- The accumulation `top += freq_axis[i] * mags2[i]` of lines 357-360
(exact rational sum, so the accumulation order is immaterial). -/
def dotSum : List ℚ → List ℚ → ℚ
  | x :: xs, y :: ys => x * y + dotSum xs ys
  | _, _ => 0

/-- The accumulation `top += pow(freq_axis[i] - cf, 2) * mags2[i]` of
lines 405-408. -/
def sqDot (cf : ℚ) : List ℚ → List ℚ → ℚ
  | x :: xs, y :: ys => (x - cf) ^ 2 * y + sqDot cf xs ys
  | _, _ => 0

/-- Lines 344-364, `cf_estimate_impl::rms`: the energy-weighted centroid
`((top/energy) - cf) / fs`.  There is no guard: when the total energy is 0
the IEEE division produces a non-finite value (`none`). -/
def rms (mags2 freq_axis : List ℚ) (center_frequency sample_rate : ℚ) : DV :=
  (fdiv (dotSum freq_axis mags2) mags2.sum).bind
    (fun mean => fdiv (mean - center_frequency) sample_rate)

/-- The scan of lines 335-338: while `running < half`, do
`running += mags2[i]; idx = i; i++`.  `none` means the C++ loop would read
`mags2[i]` past the end of the vector. -/
def hpLoop (half : ℚ) : List ℚ → ℚ → ℕ → ℕ → Option ℕ
  | [], running, _, idx => if running < half then none else some idx
  | p :: rest, running, i, idx =>
    if running < half then hpLoop half rest (running + p) (i + 1) i
    else some idx

/-- Lines 323-342, `cf_estimate_impl::half_power`:
`(half_power_idx / mags2.size()) - 0.5` (IEEE `0/0` for an empty vector). -/
def half_power (mags2 : List ℚ) : DV :=
  (hpLoop (mags2.sum / 2) mags2 0 0 0).bind
    (fun k => (fdiv (k : ℚ) (mags2.length : ℚ)).map (fun q => q - 1 / 2))

/-- One iteration of the nearest-candidate loop at lines 376-382. -/
def coerceStep (cf : ℚ) (best : ℚ × ℚ) (c : ℚ) : ℚ × ℚ :=
  if |c - cf| < best.1 then (|c - cf|, c) else best

/-- Lines 366-387, `cf_estimate_impl::coerce_frequency`: `0` for an empty
candidate list, otherwise `(nearest_candidate - cf) / fs`.  When the list
is non-empty and `cf` or `fs` is non-finite every distance comparison
involves NaN, so the first candidate is kept and the final division is
non-finite. -/
def coerce_frequency (channel_freqs : List ℚ) (center_frequency sample_rate : DV) : DV :=
  match channel_freqs with
  | [] => some 0
  | c0 :: rest =>
    match center_frequency, sample_rate with
    | some cf, some fs =>
      fdiv ((rest.foldl (coerceStep cf) (|c0 - cf|, c0)).2 - cf) fs
    | _, _ => none

/-- Lines 393-411 up to the final `sqrt`: `top/energy`, unguarded. -/
def rms_bw_radicand (mags2 freq_axis : List ℚ) (center_frequency : ℚ) : DV :=
  fdiv (sqDot center_frequency freq_axis mags2) mags2.sum

/-- Lines 393-412, `cf_estimate_impl::rms_bw` (`sqrt` via the oracle). -/
def rms_bw (g : Oracle) (mags2 freq_axis : List ℚ) (center_frequency : ℚ) : DV :=
  (rms_bw_radicand mags2 freq_axis center_frequency).bind g.sqrtD

/-- Lines 418-437, `cf_estimate_impl::estimate_pwr`: sum the bins strictly
inside `(cf - bw/2, cf + bw/2)`, divide by the gain, convert to dB.  A
non-finite `cf` or `bw` makes every IEEE comparison false, so the sum is 0. -/
def estimate_pwr (g : Oracle) (mags2 freq_axis : List ℚ) (cfD bwD : DV) (gain : ℚ) : DV :=
  let sp : ℚ :=
    match cfD, bwD with
    | some cf, some bw =>
      (freq_axis.zip mags2).foldl
        (fun acc fp => if cf - bw / 2 < fp.1 ∧ fp.1 < cf + bw / 2 then acc + fp.2 else acc) 0
    | _, _ => 0
  DV.mul (some 10) ((fdiv sp gain).bind g.log10D)

/-- Line 163. -/
def cfOf (m : Dict) : DV := dict_ref m .center_frequency none

/-- Lines 165-166: default `0.0` when the key is absent. -/
def relOf (m : Dict) : DV := dict_ref m .relative_frequency (some 0)

/-- Line 167. -/
def fsOf (m : Dict) : DV := dict_ref m .sample_rate none

/-- Lines 169-170: default `NAN` (non-finite) when the key is absent. -/
def ndOf (m : Dict) : DV := dict_ref m .noise_density none

/-- The method dispatch of lines 267-275: RMS and HALF_POWER call the
corresponding estimator, everything else performs no primary estimation
(`shift = 0`).  For RMS a non-finite `cf` or `fs` poisons the float
computation (NaN axis entries, NaN division), giving a non-finite shift. -/
def primary_offset (method : Method) (mags2 : List ℚ) (cfD fsD : DV) (n : ℕ) : DV :=
  match method with
  | .rms =>
    match cfD, fsD with
    | some cf, some fs => rms mags2 (freqAxis cf fs n) cf fs
    | _, _ => none
  | .half_power => half_power mags2
  | .coerce => some 0

def primaryShiftOf (cfg : Cfg) (g : Oracle) (m : Dict) (data : List CplxD) : DV :=
  primary_offset cfg.method (mags2Of g data) (cfOf m) (fsOf m) (fftsizeOf data.length)

/-- Lines 277-279: `shift += coerce_frequency(cf + shift*fs, fs)` — the
coercion correction is added to the primary offset. -/
def appliedShift (channel_freqs : List ℚ) (s0 cfD fsD : DV) : DV :=
  DV.add s0 (coerce_frequency channel_freqs (DV.add cfD (DV.mul s0 fsD)) fsD)

def totalShiftOf (cfg : Cfg) (g : Oracle) (m : Dict) (data : List CplxD) : DV :=
  appliedShift cfg.channel_freqs (primaryShiftOf cfg g m data) (cfOf m) (fsOf m)

/-- Line 289: `cf_correction_hz = shift * sample_rate`. -/
def corrOf (cfg : Cfg) (g : Oracle) (m : Dict) (data : List CplxD) : DV :=
  DV.mul (totalShiftOf cfg g m data) (fsOf m)

/-- Lines 284-287: derotate the FULL burst (all `burst_size` samples, not just
the analysed centre region), with the phase reset to `(1,0)` for this burst. -/
def outDataOf (cfg : Cfg) (g : Oracle) (m : Dict) (data : List CplxD) : List CplxD :=
  rotateN (g.expRot (totalShiftOf cfg g m data)) cOne data

/-- Line 251: RMS bandwidth from the PSD at the ORIGINAL center frequency. -/
def bwOf (g : Oracle) (m : Dict) (data : List CplxD) : DV :=
  match cfOf m, fsOf m with
  | some cf, some fs =>
    rms_bw g (mags2Of g data) (freqAxis cf fs (fftsizeOf data.length)) cf
  | _, _ => none

/-- Line 290: the updated center frequency. -/
def newCfOf (cfg : Cfg) (g : Oracle) (m : Dict) (data : List CplxD) : DV :=
  DV.add (cfOf m) (corrOf cfg g m data)

/-- Lines 291-292: `if (relative_frequency != 0) relative_frequency += corr`. -/
def newRelVal (relD corr : DV) : DV :=
  if DV.neZero relD then DV.add relD corr else relD

/-- Lines 306-307: in-band power at the UPDATED center frequency, on the axis
built from the original one. -/
def pwrOf (cfg : Cfg) (g : Oracle) (m : Dict) (data : List CplxD) : DV :=
  let axis : List ℚ :=
    match cfOf m, fsOf m with
    | some cf, some fs => freqAxis cf fs (fftsizeOf data.length)
    | _, _ => []
  estimate_pwr g (mags2Of g data) axis (newCfOf cfg g m data) (bwOf g m data)
    (g.mag2Gain (fftpowerClamped data.length))

/-- Line 308: `snr_db = pwr_db - (noise_density_db + 10*log10(bandwidth))`. -/
def snrOf (cfg : Cfg) (g : Oracle) (m : Dict) (data : List CplxD) : DV :=
  DV.sub (pwrOf cfg g m data)
    (DV.add (ndOf m) (DV.mul (some 10) ((bwOf g m data).bind g.log10D)))

/-- Line 255: `nf = noise_density_db + 10*log10(sample_rate / fftsize)`. -/
def noiseFloorOf (g : Oracle) (m : Dict) (data : List CplxD) : DV :=
  DV.add (ndOf m)
    (DV.mul (some 10) ((DV.div (fsOf m) (some ((fftsizeOf data.length : ℕ) : ℚ))).bind g.log10D))

/-- Lines 254-257: the debug PSD, one complex value
`(10*log10(mags2[i] / gain), nf)` per bin. -/
def dbgVecOf (g : Oracle) (m : Dict) (data : List CplxD) : List CplxD :=
  (mags2Of g data).map
    (fun q =>
      (DV.mul (some 10) ((fdiv q (g.mag2Gain (fftpowerClamped data.length))).bind g.log10D),
       noiseFloorOf g m data))

/-- Lines 260-261: the debug port carries the ORIGINAL metadata. -/
def debugMsgOf (g : Oracle) (m : Dict) (data : List CplxD) : Pmt :=
  .pair (.dict m) (.c32 (dbgVecOf g m data))

/-- Lines 297-313: output metadata assembly.  `center_frequency` is always
re-added; `relative_frequency` only when its UPDATED value is nonzero (IEEE
`!= 0`); `bandwidth` always; and because `noise_density_db != NAN` is
identically true (see `ieeeNeNan`), `pwr_db` and `snr_db` are always added. -/
def assembleMeta (m : Dict) (newCf newRel bw pwr snr ndD : DV) : Dict :=
  let m1 := dict_add m .center_frequency newCf
  let m2 := if DV.neZero newRel then dict_add m1 .relative_frequency newRel else m1
  let m3 := dict_add m2 .bandwidth bw
  if ieeeNeNan ndD then dict_add (dict_add m3 .pwr_db pwr) .snr_db snr else m3

def outMetaOf (cfg : Cfg) (g : Oracle) (m : Dict) (data : List CplxD) : Dict :=
  assembleMeta m (newCfOf cfg g m data)
    (newRelVal (relOf m) (corrOf cfg g m data))
    (bwOf g m data) (pwrOf cfg g m data) (snrOf cfg g m data) (ndOf m)

/-- Lines 315-316: the corrected PDU. -/
def outMsgOf (cfg : Cfg) (g : Oracle) (m : Dict) (data : List CplxD) : Pmt :=
  .pair (.dict (outMetaOf cfg g m data)) (.c32 (outDataOf cfg g m data))

/-- Lines 163-316, the handler body after validation: exactly one debug
message and one corrected message are published. -/
def handlerCore (cfg : Cfg) (g : Oracle) (m : Dict) (data : List CplxD) : List Pmt × List Pmt :=
  ([debugMsgOf g m data], [outMsgOf cfg g m data])

/-- Lines 129-317, `cf_estimate_impl::pdu_handler`: the validation chain of
lines 134-162 (pair, c32vector payload, dict metadata, required keys) drops
the PDU with no output on either port; otherwise the body runs.  Result:
(messages on the debug port, messages on the out port). -/
def pdu_handler (cfg : Cfg) (g : Oracle) (pdu : Pmt) : List Pmt × List Pmt :=
  match pdu with
  | .pair metadata pdu_data =>
    match pdu_data with
    | .c32 data =>
      match metadata with
      | .dict m =>
        if dict_has_key m .center_frequency && dict_has_key m .sample_rate then
          handlerCore cfg g m data
        else ([], [])
      | _ => ([], [])
    | _ => ([], [])
  | _ => ([], [])

/-- The shapes accepted by the validation chain of lines 134-162. -/
def validShape : Pmt → Bool
  | .pair (.dict m) (.c32 _) =>
    dict_has_key m .center_frequency && dict_has_key m .sample_rate
  | _ => false

/-! Concrete fixtures used by witnesses and counterexamples. -/

/-- A concrete oracle instance for evaluating the model on concrete bursts. -/
def testOracle : Oracle where
  fftMag2 := fun _ seg => seg.map (fun _ => 0)
  sqrtD := fun q => some q
  log10D := fun q => some q
  expRot := fun _ => cOne
  mag2Gain := fun _ => 1

/-- A 4-sample all-zero burst (the smallest well-defined burst size). -/
def data4 : List CplxD := List.replicate 4 (some 0, some 0)

def mdBasic : Dict := [(.center_frequency, some 100), (.sample_rate, some 1000)]

def cfgRms : Cfg := ⟨.rms, []⟩

def cfgCoerce110 : Cfg := ⟨.coerce, [110]⟩

def mdRelCancel : Dict :=
  [(.center_frequency, some 100), (.sample_rate, some 1000),
   (.relative_frequency, some (-10))]

/-! ## Helper lemmas -/

theorem log2fuel_spec : ∀ (fuel n : ℕ), n ≤ fuel → 1 ≤ n →
    2 ^ log2fuel fuel n ≤ n ∧ n < 2 ^ (log2fuel fuel n + 1) := by
  intro fuel
  induction fuel with
  | zero => intro n h1 h2; omega
  | succ f ih =>
    intro n hle h1
    by_cases h2 : 2 ≤ n
    · have hrec := ih (n / 2) (by omega) (by omega)
      simp only [log2fuel, if_pos h2]
      have e1 : 2 ^ (log2fuel f (n / 2) + 1) = 2 * 2 ^ (log2fuel f (n / 2)) := by ring
      have e2 : 2 ^ (log2fuel f (n / 2) + 1 + 1) = 2 * 2 ^ (log2fuel f (n / 2) + 1) := by ring
      constructor
      · have := hrec.1
        omega
      · have := hrec.2
        omega
    · simp only [log2fuel, if_neg h2]
      omega

theorem log2floor_spec (n : ℕ) (h : 1 ≤ n) :
    2 ^ log2floor n ≤ n ∧ n < 2 ^ (log2floor n + 1) :=
  log2fuel_spec n n le_rfl h

theorem rotateN_length (incr : CplxD) :
    ∀ (phase : CplxD) (l : List CplxD), (rotateN incr phase l).length = l.length := by
  intro phase l
  induction l generalizing phase with
  | nil => rfl
  | cons x xs ih => simp [rotateN, ih]

theorem dict_find_add_same (m : Dict) (k : MKey) (v : DV) :
    dict_find (dict_add m k v) k = some v := by
  simp [dict_find, dict_add, List.find?]

theorem find?_dict_del (k kq : MKey) (h : kq ≠ k) :
    ∀ m : Dict,
      List.find? (fun e => e.1 = kq) (dict_del m k) =
      List.find? (fun e => e.1 = kq) m := by
  have hk : (k = kq) = False := eq_false (fun hc => h hc.symm)
  intro m
  induction m with
  | nil => rfl
  | cons e rest ih =>
    by_cases he : e.1 = k
    · rw [show dict_del (e :: rest) k = dict_del rest k from by
        simp [dict_del, List.filter_cons, he]]
      rw [ih, List.find?_cons_of_neg]
      simp [he, hk]
    · rw [show dict_del (e :: rest) k = e :: dict_del rest k from by
        simp [dict_del, List.filter_cons, he]]
      by_cases hq : e.1 = kq
      · rw [List.find?_cons_of_pos, List.find?_cons_of_pos] <;> simp [hq]
      · rw [List.find?_cons_of_neg, List.find?_cons_of_neg]
        · exact ih
        · simp [hq]
        · simp [hq]

theorem dict_find_add_ne (m : Dict) (k kq : MKey) (v : DV) (h : kq ≠ k) :
    dict_find (dict_add m k v) kq = dict_find m kq := by
  have hk : ¬ k = kq := fun hc => h hc.symm
  unfold dict_find dict_add
  rw [show List.find? (fun e => decide (e.1 = kq)) ((k, v) :: dict_del m k)
        = List.find? (fun e => decide (e.1 = kq)) (dict_del m k) from by
      simp [List.find?, hk]]
  rw [find?_dict_del k kq h m]

theorem hpLoop_go (half : ℚ) :
    ∀ (bins : List ℚ) (running : ℚ) (i idx : ℕ),
      running < half → half ≤ running + bins.sum →
      ∃ k, k < bins.length ∧
        hpLoop half bins running i idx = some (i + k) ∧
        half ≤ running + (bins.take (k + 1)).sum ∧
        ∀ j, j < k → running + (bins.take (j + 1)).sum < half := by
  intro bins
  induction bins with
  | nil =>
    intro running i idx h1 h2
    exfalso
    simp only [List.sum_nil, add_zero] at h2
    linarith
  | cons p rest ih =>
    intro running i idx h1 h2
    by_cases hc : running + p < half
    · obtain ⟨k, hk, heq, hge, hlt⟩ := ih (running + p) (i + 1) i hc
        (by simp only [List.sum_cons] at h2; linarith)
      refine ⟨k + 1, by simpa using hk, ?_, ?_, ?_⟩
      · rw [show hpLoop half (p :: rest) running i idx
              = hpLoop half rest (running + p) (i + 1) i from by
            simp [hpLoop, h1]]
        rw [heq]
        congr 1
        omega
      · simp only [List.take_succ_cons, List.sum_cons]
        linarith
      · intro j hj
        cases j with
        | zero =>
          simpa using hc
        | succ j2 =>
          have hlt2 := hlt j2 (by omega)
          simp only [List.take_succ_cons, List.sum_cons]
          linarith
    · refine ⟨0, by simp, ?_, ?_, ?_⟩
      · rw [show hpLoop half (p :: rest) running i idx
              = hpLoop half rest (running + p) (i + 1) i from by
            simp [hpLoop, h1]]
        cases rest <;> simp [hpLoop, hc]
      · simp only [List.take_succ_cons, List.take_zero, List.sum_cons, List.sum_nil, add_zero]
        linarith
      · intro j hj
        exact absurd hj (Nat.not_lt_zero j)

theorem coerce_foldl (cf : ℚ) :
    ∀ (rest : List ℚ) (b : ℚ × ℚ), b.1 = |b.2 - cf| →
      (rest.foldl (coerceStep cf) b).1 = |(rest.foldl (coerceStep cf) b).2 - cf| ∧
      ((rest.foldl (coerceStep cf) b).2 = b.2 ∨ (rest.foldl (coerceStep cf) b).2 ∈ rest) ∧
      (rest.foldl (coerceStep cf) b).1 ≤ b.1 ∧
      ∀ c ∈ rest, (rest.foldl (coerceStep cf) b).1 ≤ |c - cf| := by
  intro rest
  induction rest with
  | nil =>
    intro b hb
    refine ⟨hb, Or.inl rfl, le_rfl, ?_⟩
    intro c hc
    exact absurd hc (List.not_mem_nil c)
  | cons c0 rest2 ih =>
    intro b hb
    simp only [List.foldl_cons]
    by_cases hstep : |c0 - cf| < b.1
    · have hc0 : (coerceStep cf b c0) = (|c0 - cf|, c0) := by
        simp [coerceStep, hstep]
      have hb2 : (coerceStep cf b c0).1 = |(coerceStep cf b c0).2 - cf| := by
        rw [hc0]
      have hfst : (coerceStep cf b c0).1 = |c0 - cf| := by rw [hc0]
      obtain ⟨r1, r2, r3, r4⟩ := ih (coerceStep cf b c0) hb2
      refine ⟨r1, ?_, ?_, ?_⟩
      · rcases r2 with h2 | h2
        · right
          rw [h2, hc0]
          exact List.mem_cons_self c0 rest2
        · right
          exact List.mem_cons_of_mem c0 h2
      · calc (List.foldl (coerceStep cf) (coerceStep cf b c0) rest2).1
            ≤ (coerceStep cf b c0).1 := r3
          _ = |c0 - cf| := hfst
          _ ≤ b.1 := le_of_lt hstep
      · intro c hc
        rcases List.mem_cons.mp hc with hceq | hcmem
        · rw [hceq]
          calc (List.foldl (coerceStep cf) (coerceStep cf b c0) rest2).1
              ≤ (coerceStep cf b c0).1 := r3
            _ = |c0 - cf| := hfst
        · exact r4 c hcmem
    · have hc0 : (coerceStep cf b c0) = b := by
        simp [coerceStep, hstep]
      rw [hc0]
      obtain ⟨r1, r2, r3, r4⟩ := ih b hb
      refine ⟨r1, ?_, r3, ?_⟩
      · rcases r2 with h2 | h2
        · left; exact h2
        · right
          exact List.mem_cons_of_mem c0 h2
      · intro c hc
        rcases List.mem_cons.mp hc with hceq | hcmem
        · rw [hceq]
          push_neg at hstep
          calc (List.foldl (coerceStep cf) b rest2).1 ≤ b.1 := r3
            _ ≤ |c0 - cf| := hstep
        · exact r4 c hcmem

theorem freqAxis_length (cf fs : ℚ) (n : ℕ) : (freqAxis cf fs n).length = n := by
  rw [freqAxis, List.length_map, List.length_range]

theorem freqAxis_bounds (cf fs : ℚ) (n : ℕ) (hfs : 0 ≤ fs) :
    ∀ f ∈ freqAxis cf fs n, cf - fs / 2 ≤ f ∧ f ≤ cf + fs / 2 := by
  intro f hf
  rw [freqAxis] at hf
  rcases List.mem_map.mp hf with ⟨i, hir, rfl⟩
  have hi : i < n := List.mem_range.mp hir
  have hn : (0 : ℚ) < (n : ℚ) := by
    have hn0 : 0 < n := by omega
    exact_mod_cast hn0
  have hstep : (0 : ℚ) ≤ fs / (n : ℚ) := div_nonneg hfs (le_of_lt hn)
  have hiq : (0 : ℚ) ≤ (i : ℚ) := Nat.cast_nonneg i
  have hin : (i : ℚ) ≤ (n : ℚ) := by exact_mod_cast Nat.le_of_lt hi
  constructor
  · have hge : 0 ≤ fs / (n : ℚ) * (i : ℚ) := mul_nonneg hstep hiq
    linarith
  · have h1 : fs / (n : ℚ) * (i : ℚ) ≤ fs / (n : ℚ) * (n : ℚ) :=
      mul_le_mul_of_nonneg_left hin hstep
    have h2 : fs / (n : ℚ) * (n : ℚ) = fs := div_mul_cancel₀ fs (ne_of_gt hn)
    linarith

theorem dotSum_bounds (lo hi : ℚ) :
    ∀ (xs ys : List ℚ), xs.length = ys.length →
      (∀ x ∈ xs, lo ≤ x ∧ x ≤ hi) → (∀ y ∈ ys, 0 ≤ y) →
      lo * ys.sum ≤ dotSum xs ys ∧ dotSum xs ys ≤ hi * ys.sum := by
  intro xs
  induction xs with
  | nil =>
    intro ys hlen _ _
    have hys : ys = [] := List.eq_nil_of_length_eq_zero hlen.symm
    subst hys
    simp [dotSum]
  | cons x xs2 ih =>
    intro ys hlen hx hy
    cases ys with
    | nil => simp at hlen
    | cons y ys2 =>
      have h1 := ih ys2 (by simpa using hlen)
        (fun a ha => hx a (List.mem_cons_of_mem _ ha))
        (fun b hb => hy b (List.mem_cons_of_mem _ hb))
      have hxx := hx x (List.mem_cons_self x xs2)
      have hyy := hy y (List.mem_cons_self y ys2)
      simp only [dotSum, List.sum_cons]
      constructor
      · have hm : lo * y ≤ x * y := mul_le_mul_of_nonneg_right hxx.1 hyy
        rw [mul_add]
        linarith [h1.1]
      · have hm : x * y ≤ hi * y := mul_le_mul_of_nonneg_right hxx.2 hyy
        rw [mul_add]
        linarith [h1.2]

/-! ## Claim theorems -/

/-- Claim C4: a malformed PDU (not a pair, payload not a c32 vector, metadata
not a dict, or `center_frequency`/`sample_rate` missing) produces no output on
either channel; a well-formed PDU (of at least `MIN_NFFTS` samples, below
which the C++ arithmetic is undefined) produces exactly one record on the
debug channel and one on the corrected channel. -/
theorem pdu_handler_output_discipline (cfg : Cfg) (g : Oracle) :
    (∀ pdu : Pmt, validShape pdu = false → pdu_handler cfg g pdu = ([], [])) ∧
    (∀ (m : Dict) (data : List CplxD),
      validShape (.pair (.dict m) (.c32 data)) = true → 4 ≤ data.length →
      (pdu_handler cfg g (.pair (.dict m) (.c32 data))).1.length = 1 ∧
      (pdu_handler cfg g (.pair (.dict m) (.c32 data))).2.length = 1) := by
  constructor
  · intro pdu hv
    cases pdu with
    | pair car cdr =>
      cases cdr with
      | c32 data =>
        cases car with
        | dict m =>
          simp only [validShape] at hv
          simp [pdu_handler, hv]
        | pair a b => rfl
        | c32 v => rfl
        | other => rfl
      | pair a b => rfl
      | dict m2 => rfl
      | other => rfl
    | c32 v => rfl
    | dict m => rfl
    | other => rfl
  · intro m data hv _hN
    simp only [validShape] at hv
    simp [pdu_handler, hv, handlerCore]

/-- Witness for C4: a non-pair PDU yields no output on either channel, and a
well-formed 4-sample PDU yields exactly one record per channel. -/
theorem pdu_handler_output_discipline_witness :
    pdu_handler cfgRms testOracle .other = ([], []) ∧
    (pdu_handler cfgRms testOracle (.pair (.dict mdBasic) (.c32 data4))).1.length = 1 ∧
    (pdu_handler cfgRms testOracle (.pair (.dict mdBasic) (.c32 data4))).2.length = 1 := by
  refine ⟨(pdu_handler_output_discipline cfgRms testOracle).1 .other rfl, ?_, ?_⟩
  · exact ((pdu_handler_output_discipline cfgRms testOracle).2 mdBasic data4 rfl (by decide)).1
  · exact ((pdu_handler_output_discipline cfgRms testOracle).2 mdBasic data4 rfl (by decide)).2

/-- Claim C8: for every valid burst the record on the corrected channel
carries the rotation of the FULL input burst (not only the analysed centre
segment), computed sample-by-sample starting from unit phase `(1,0)` with the
phase increment obtained for the final shift, and the corrected burst has
exactly the length of the input burst. -/
theorem corrected_burst_same_length (cfg : Cfg) (g : Oracle) (m : Dict)
    (data : List CplxD) (_hN : 4 ≤ data.length) :
    (handlerCore cfg g m data).2 =
      [Pmt.pair (Pmt.dict (outMetaOf cfg g m data))
        (Pmt.c32 (rotateN (g.expRot (totalShiftOf cfg g m data)) cOne data))] ∧
    (outDataOf cfg g m data).length = data.length :=
  ⟨rfl, rotateN_length _ _ _⟩

/-- Witness for C8 at the concrete 4-sample burst. -/
theorem corrected_burst_same_length_witness :
    4 ≤ data4.length ∧
    (handlerCore cfgRms testOracle mdBasic data4).2 =
      [Pmt.pair (Pmt.dict (outMetaOf cfgRms testOracle mdBasic data4))
        (Pmt.c32 (rotateN (testOracle.expRot (totalShiftOf cfgRms testOracle mdBasic data4))
          cOne data4))] ∧
    (outDataOf cfgRms testOracle mdBasic data4).length = data4.length :=
  ⟨by decide,
   (corrected_burst_same_length cfgRms testOracle mdBasic data4 (by decide)).1,
   (corrected_burst_same_length cfgRms testOracle mdBasic data4 (by decide)).2⟩

/-- Counterexample to claim C2: on an all-zero-energy PSD the RMS centroid and
the RMS bandwidth computations do NOT return 0 — the unguarded division by the
zero total energy produces a non-finite value (NaN in the C++), modelled as
`none`. -/
theorem rms_zero_energy_counterexample :
    rms [0, 0] (freqAxis 0 1 2) 0 1 = none ∧
    rms_bw testOracle [0, 0] (freqAxis 0 1 2) 0 = none ∧
    ¬ rms [0, 0] (freqAxis 0 1 2) 0 1 = some 0 := by
  have h1 : rms [0, 0] (freqAxis 0 1 2) 0 1 = none := by
    rw [rms]
    norm_num [fdiv]
  have h2 : rms_bw testOracle [0, 0] (freqAxis 0 1 2) 0 = none := by
    rw [rms_bw, rms_bw_radicand]
    norm_num [fdiv]
  exact ⟨h1, h2, by rw [h1]; exact fun hc => Option.noConfusion hc⟩

/-- Claim C2 (amended): zero total PSD energy makes the RMS-centroid offset
and the RMS bandwidth radicand non-finite (NaN) — the division by the total
energy is unguarded and there is no neutral zero fallback. -/
theorem rms_zero_energy_nan (g : Oracle) (mags2 freq_axis : List ℚ) (cf fs : ℚ)
    (hzero : mags2.sum = 0) :
    rms mags2 freq_axis cf fs = none ∧
    rms_bw_radicand mags2 freq_axis cf = none ∧
    rms_bw g mags2 freq_axis cf = none := by
  have h1 : rms mags2 freq_axis cf fs = none := by
    rw [rms, hzero]
    simp [fdiv]
  have h2 : rms_bw_radicand mags2 freq_axis cf = none := by
    rw [rms_bw_radicand, hzero]
    simp [fdiv]
  exact ⟨h1, h2, by rw [rms_bw, h2]; rfl⟩

/-- Witness for the amended C2 at a concrete zero-energy PSD. -/
theorem rms_zero_energy_nan_witness :
    ([0, 0] : List ℚ).sum = 0 ∧
    rms [0, 0] (freqAxis 100 1000 2) 100 1000 = none ∧
    rms_bw_radicand [0, 0] (freqAxis 100 1000 2) 100 = none ∧
    rms_bw testOracle [0, 0] (freqAxis 100 1000 2) 100 = none := by
  have h := rms_zero_energy_nan testOracle [0, 0] (freqAxis 100 1000 2) 100 1000 (by norm_num)
  exact ⟨by norm_num, h.1, h.2.1, h.2.2⟩

/-- Claim C6: for a PSD with positive total energy the half-power method
returns `(k / len) - 1/2`, where `k` is the SMALLEST index at which the
cumulative sum of the bins from index 0 first reaches or exceeds half the
total energy. -/
theorem half_power_first_crossing (mags2 : List ℚ) (hpos : 0 < mags2.sum) :
    ∃ k, k < mags2.length ∧
      half_power mags2 = some ((k : ℚ) / (mags2.length : ℚ) - 1 / 2) ∧
      mags2.sum / 2 ≤ (mags2.take (k + 1)).sum ∧
      ∀ j, j < k → (mags2.take (j + 1)).sum < mags2.sum / 2 := by
  obtain ⟨k, hk, heq, hge, hlt⟩ := hpLoop_go (mags2.sum / 2) mags2 0 0 0
    (by linarith) (by linarith)
  have hlen : (mags2.length : ℚ) ≠ 0 := by
    have h0 : mags2.length ≠ 0 := by omega
    exact_mod_cast h0
  refine ⟨k, hk, ?_, by simpa using hge, fun j hj => by simpa using hlt j hj⟩
  rw [half_power, heq]
  simp [fdiv, hlen]

/-- Witness for C6 on the PSD `[1, 3]`. -/
theorem half_power_first_crossing_witness :
    0 < ([1, 3] : List ℚ).sum ∧
    ∃ k, k < ([1, 3] : List ℚ).length ∧
      half_power [1, 3] = some ((k : ℚ) / (([1, 3] : List ℚ).length : ℚ) - 1 / 2) ∧
      ([1, 3] : List ℚ).sum / 2 ≤ (([1, 3] : List ℚ).take (k + 1)).sum ∧
      ∀ j, j < k → (([1, 3] : List ℚ).take (j + 1)).sum < ([1, 3] : List ℚ).sum / 2 :=
  ⟨by norm_num, half_power_first_crossing [1, 3] (by norm_num)⟩

/-- Claim C10: on a non-empty PSD with non-negative bins the cumulative scan
of `half_power` stops before running off the end of the vector (the result is
`some`, i.e. no out-of-bounds read), and when the total energy is exactly zero
the loop body never executes and the function returns exactly `-1/2` (index
0), not a neutral zero offset. -/
theorem half_power_safe (mags2 : List ℚ) (hne : mags2 ≠ [])
    (hnn : ∀ p ∈ mags2, 0 ≤ p) :
    (half_power mags2).isSome = true ∧
    (mags2.sum = 0 → half_power mags2 = some (-(1 / 2))) := by
  have hlen : (mags2.length : ℚ) ≠ 0 := by
    have h0 : mags2.length ≠ 0 := fun hc => hne (List.eq_nil_of_length_eq_zero hc)
    exact_mod_cast h0
  have hsum : 0 ≤ mags2.sum := List.sum_nonneg hnn
  rcases eq_or_lt_of_le hsum with h0 | hpos
  · have h0 : mags2.sum = 0 := h0.symm
    have hcalc : half_power mags2 = some (-(1 / 2)) := by
      cases mags2 with
      | nil => exact absurd rfl hne
      | cons p rest =>
        have hloop : hpLoop ((p :: rest).sum / 2) (p :: rest) 0 0 0 = some 0 := by
          rw [h0]
          norm_num [hpLoop]
        have hlen3 : ((rest.length : ℚ) + 1) ≠ 0 := by positivity
        rw [half_power, hloop]
        simp [fdiv, hlen, hlen3]
    exact ⟨by rw [hcalc]; rfl, fun _ => hcalc⟩
  · constructor
    · obtain ⟨k, hk, heq, _, _⟩ := hpLoop_go (mags2.sum / 2) mags2 0 0 0
        (by linarith) (by linarith)
      rw [half_power, heq]
      simp [fdiv, hlen]
    · intro hzero
      rw [hzero] at hpos
      exact absurd hpos (lt_irrefl 0)

/-- Witness for C10 on the all-zero PSD `[0, 0]`. -/
theorem half_power_safe_witness :
    ([0, 0] : List ℚ) ≠ [] ∧ (∀ p ∈ ([0, 0] : List ℚ), 0 ≤ p) ∧
    (half_power [0, 0]).isSome = true ∧ half_power [0, 0] = some (-(1 / 2)) := by
  have h := half_power_safe [0, 0] (by simp) (by norm_num)
  exact ⟨by simp, by norm_num, h.1, h.2 (by norm_num)⟩

/-- Claim C7: frequency coercion returns an extra offset of 0 for an empty
candidate list; returns 0 when the candidate list contains the exact
already-corrected estimate; otherwise returns `(nearest candidate − estimate)
/ sample_rate` for a nearest-by-absolute-distance candidate; and
`appliedShift` adds this correction to the primary offset. -/
theorem coerce_frequency_nearest (channel_freqs : List ℚ) (cf fs : ℚ) (hfs : fs ≠ 0) :
    coerce_frequency [] (some cf) (some fs) = some 0 ∧
    (cf ∈ channel_freqs → coerce_frequency channel_freqs (some cf) (some fs) = some 0) ∧
    (channel_freqs ≠ [] →
      ∃ c ∈ channel_freqs,
        (∀ cq ∈ channel_freqs, |c - cf| ≤ |cq - cf|) ∧
        coerce_frequency channel_freqs (some cf) (some fs) = some ((c - cf) / fs)) ∧
    (∀ s0 : DV, appliedShift channel_freqs s0 (some cf) (some fs) =
      DV.add s0 (coerce_frequency channel_freqs
        (DV.add (some cf) (DV.mul s0 (some fs))) (some fs))) := by
  have hnear : ∀ (c0 : ℚ) (rest : List ℚ),
      ∃ c ∈ (c0 :: rest),
        (∀ cq ∈ (c0 :: rest), |c - cf| ≤ |cq - cf|) ∧
        coerce_frequency (c0 :: rest) (some cf) (some fs) = some ((c - cf) / fs) := by
    intro c0 rest
    obtain ⟨r1, r2, r3, r4⟩ := coerce_foldl cf rest (|c0 - cf|, c0) rfl
    refine ⟨(rest.foldl (coerceStep cf) (|c0 - cf|, c0)).2, ?_, ?_, ?_⟩
    · rcases r2 with h2 | h2
      · rw [h2]
        exact List.mem_cons_self c0 rest
      · exact List.mem_cons_of_mem c0 h2
    · intro cq hcq
      rcases List.mem_cons.mp hcq with hceq | hcmem
      · rw [hceq, ← r1]
        exact r3
      · rw [← r1]
        exact r4 cq hcmem
    · simp only [coerce_frequency]
      rw [fdiv, if_neg hfs]
  refine ⟨rfl, ?_, ?_, fun s0 => rfl⟩
  · intro hmem
    cases channel_freqs with
    | nil => exact absurd hmem (List.not_mem_nil cf)
    | cons c0 rest =>
      obtain ⟨c, hc, hmin, heq⟩ := hnear c0 rest
      have h0 : |c - cf| ≤ 0 := by
        have hx := hmin cf hmem
        simpa using hx
      have hceq : c = cf := by
        have habs : |c - cf| = 0 := le_antisymm h0 (abs_nonneg _)
        have hd : c - cf = 0 := abs_eq_zero.mp habs
        linarith
      rw [heq, hceq]
      norm_num
  · intro hne
    cases channel_freqs with
    | nil => exact absurd rfl hne
    | cons c0 rest => exact hnear c0 rest

/-- Witness for C7: empty list is a no-op, and with candidates `[110]` and
estimate 100 at sample rate 1000 the offset is `(110 − 100)/1000`. -/
theorem coerce_frequency_nearest_witness :
    (1000 : ℚ) ≠ 0 ∧
    coerce_frequency [] (some (100 : ℚ)) (some 1000) = some 0 ∧
    coerce_frequency [(110 : ℚ)] (some 100) (some 1000) = some ((110 - 100) / 1000) := by
  have h := coerce_frequency_nearest [(110 : ℚ)] 100 1000 (by norm_num)
  refine ⟨by norm_num, h.1, ?_⟩
  obtain ⟨c, hc, _, heq⟩ := h.2.2.1 (by simp)
  have hc110 : c = 110 := by simpa using hc
  rw [hc110] at heq
  exact heq

/-- Counterexample to claim C5: on an all-zero PSD (e.g. an all-zero burst)
the RMS strategy's primary offset is non-finite (NaN), which does not lie in
[-0.5, 0.5]; the claimed range does not hold for every PSD. -/
theorem primary_offset_nan_counterexample :
    primary_offset .rms [0, 0] (some 0) (some 1) 2 = none := by
  simp only [primary_offset]
  rw [rms]
  norm_num [fdiv]

/-- Claim C5 (amended): for a PSD with non-negative bins and POSITIVE total
energy (and a positive sample rate), the primary offset of every strategy —
RMS centroid over the handler frequency axis, half-power midpoint, and the
coercion-only zero primary — is a finite value in [-1/2, 1/2]; for zero total
energy the RMS strategy instead produces NaN (see the counterexample). -/
theorem primary_offset_bounded (method : Method) (mags2 : List ℚ) (cf fs : ℚ)
    (hfs : 0 < fs) (hpos : 0 < mags2.sum) (hnn : ∀ p ∈ mags2, 0 ≤ p) :
    ∃ q, primary_offset method mags2 (some cf) (some fs) mags2.length = some q ∧
      -(1 / 2) ≤ q ∧ q ≤ 1 / 2 := by
  cases method with
  | coerce =>
    exact ⟨0, rfl, by norm_num, by norm_num⟩
  | half_power =>
    obtain ⟨k, hk, heq, _, _⟩ := hpLoop_go (mags2.sum / 2) mags2 0 0 0
      (by linarith) (by linarith)
    have hnq : (0 : ℚ) < (mags2.length : ℚ) := by
      have h0 : 0 < mags2.length := by omega
      exact_mod_cast h0
    refine ⟨(k : ℚ) / (mags2.length : ℚ) - 1 / 2, ?_, ?_, ?_⟩
    · show half_power mags2 = _
      rw [half_power, heq]
      simp [fdiv, ne_of_gt hnq]
    · have hdiv : (0 : ℚ) ≤ (k : ℚ) / (mags2.length : ℚ) :=
        div_nonneg (Nat.cast_nonneg k) (le_of_lt hnq)
      linarith
    · have hkq : (k : ℚ) ≤ (mags2.length : ℚ) := by
        exact_mod_cast Nat.le_of_lt hk
      have hdiv : (k : ℚ) / (mags2.length : ℚ) ≤ 1 := (div_le_one hnq).mpr hkq
      linarith
  | rms =>
    have hE : mags2.sum ≠ 0 := ne_of_gt hpos
    have hlen : (freqAxis cf fs mags2.length).length = mags2.length :=
      freqAxis_length cf fs mags2.length
    have hb := dotSum_bounds (cf - fs / 2) (cf + fs / 2)
      (freqAxis cf fs mags2.length) mags2 hlen
      (freqAxis_bounds cf fs mags2.length (le_of_lt hfs)) hnn
    have hmean1 : cf - fs / 2 ≤ dotSum (freqAxis cf fs mags2.length) mags2 / mags2.sum :=
      (le_div_iff₀ hpos).mpr hb.1
    have hmean2 : dotSum (freqAxis cf fs mags2.length) mags2 / mags2.sum ≤ cf + fs / 2 :=
      (div_le_iff₀ hpos).mpr hb.2
    refine ⟨(dotSum (freqAxis cf fs mags2.length) mags2 / mags2.sum - cf) / fs, ?_, ?_, ?_⟩
    · simp only [primary_offset]
      rw [rms]
      rw [fdiv, if_neg hE]
      rw [Option.some_bind]
      rw [fdiv, if_neg (ne_of_gt hfs)]
    · rw [le_div_iff₀ hfs]
      linarith
    · rw [div_le_iff₀ hfs]
      linarith

/-- Witness for the amended C5 with the RMS strategy on the PSD `[1, 3]`. -/
theorem primary_offset_bounded_witness :
    (0 : ℚ) < 1 ∧ 0 < ([1, 3] : List ℚ).sum ∧ (∀ p ∈ ([1, 3] : List ℚ), 0 ≤ p) ∧
    ∃ q, primary_offset .rms [1, 3] (some 0) (some 1) ([1, 3] : List ℚ).length = some q ∧
      -(1 / 2) ≤ q ∧ q ≤ 1 / 2 :=
  ⟨by norm_num, by norm_num, by norm_num,
    primary_offset_bounded .rms [1, 3] 0 1 (by norm_num) (by norm_num) (by norm_num)⟩

/-- Counterexample to claim C3: a 64-sample burst gets FFT power
`floor(log2(64/4)) = 4`, which is NOT clamped up to `MIN_FFT_POWER = 5`:
the resulting FFT size is 16, outside the claimed interval [32, 256]. -/
theorem fftsize_below_min_counterexample :
    fftpowerOf 64 = 4 ∧ fftpowerClamped 64 = 4 ∧ fftsizeOf 64 = 16 ∧
    fftsizeOf 64 < 2 ^ MIN_FFT_POWER := by
  decide

/-- Claim C3 (amended): the FFT power is `floor(log2(N / MIN_NFFTS))` clamped
from ABOVE only, at `MAX_FFT_POWER`; hence `fft_size` is always a power of two
at most `2^MAX_FFT_POWER = 256`, lies in [32, 256] precisely for bursts of at
least `2^MIN_FFT_POWER · MIN_NFFTS = 128` samples, and drops below 32 for
shorter (4 ≤ N < 128) bursts. -/
theorem fftsize_amended (N : ℕ) (hN : 4 ≤ N) :
    (∃ k, k ≤ MAX_FFT_POWER ∧ fftsizeOf N = 2 ^ k) ∧
    fftsizeOf N ≤ 256 ∧
    (128 ≤ N → 32 ≤ fftsizeOf N ∧ fftsizeOf N ≤ 256) ∧
    (N < 128 → fftsizeOf N < 32) := by
  have hP : fftpowerOf N = log2floor (N / 4) := rfl
  have h14 : 1 ≤ N / 4 := by omega
  obtain ⟨hlo, hhi⟩ := log2floor_spec (N / 4) h14
  rw [← hP] at hlo hhi
  have hcl : fftpowerClamped N ≤ 8 := by
    unfold fftpowerClamped MAX_FFT_POWER
    split <;> omega
  refine ⟨⟨fftpowerClamped N, hcl, rfl⟩, ?_, ?_, ?_⟩
  · calc fftsizeOf N = 2 ^ fftpowerClamped N := rfl
      _ ≤ 2 ^ 8 := Nat.pow_le_pow_right (by norm_num) hcl
      _ = 256 := by norm_num
  · intro h128
    have h32 : 32 ≤ N / 4 := by omega
    have hL5 : 5 ≤ fftpowerOf N := by
      by_contra hcon
      push_neg at hcon
      have hle : 2 ^ (fftpowerOf N + 1) ≤ 32 := by
        calc (2:ℕ) ^ (fftpowerOf N + 1) ≤ 2 ^ 5 :=
              Nat.pow_le_pow_right (by norm_num) (by omega)
          _ = 32 := by norm_num
      omega
    have hcl5 : 5 ≤ fftpowerClamped N := by
      unfold fftpowerClamped MAX_FFT_POWER
      split <;> omega
    constructor
    · calc (32 : ℕ) = 2 ^ 5 := by norm_num
        _ ≤ 2 ^ fftpowerClamped N := Nat.pow_le_pow_right (by norm_num) hcl5
        _ = fftsizeOf N := rfl
    · calc fftsizeOf N = 2 ^ fftpowerClamped N := rfl
        _ ≤ 2 ^ 8 := Nat.pow_le_pow_right (by norm_num) hcl
        _ = 256 := by norm_num
  · intro h128
    have hlt32 : N / 4 < 32 := by omega
    have hL4 : fftpowerOf N ≤ 4 := by
      by_contra hcon
      push_neg at hcon
      have h5 : (32 : ℕ) ≤ 2 ^ fftpowerOf N := by
        calc (32 : ℕ) = 2 ^ 5 := by norm_num
          _ ≤ 2 ^ fftpowerOf N := Nat.pow_le_pow_right (by norm_num) hcon
      omega
    have hclL : fftpowerClamped N = fftpowerOf N := by
      unfold fftpowerClamped MAX_FFT_POWER
      split <;> omega
    calc fftsizeOf N = 2 ^ fftpowerClamped N := rfl
      _ ≤ 2 ^ 4 := by
          rw [hclL]
          exact Nat.pow_le_pow_right (by norm_num) hL4
      _ < 32 := by norm_num

/-- Witness for the amended C3 at `N = 256`: fft size 64, a power of two in
range. -/
theorem fftsize_amended_witness :
    4 ≤ 256 ∧
    ((∃ k, k ≤ MAX_FFT_POWER ∧ fftsizeOf 256 = 2 ^ k) ∧
     fftsizeOf 256 ≤ 256 ∧
     (128 ≤ 256 → 32 ≤ fftsizeOf 256 ∧ fftsizeOf 256 ≤ 256) ∧
     (256 < 128 → fftsizeOf 256 < 32)) :=
  ⟨by norm_num, fftsize_amended 256 (by norm_num)⟩

theorem assembleMeta_find_rel (m : Dict) (newCf newRel bw pwr snr ndD : DV) :
    dict_find (assembleMeta m newCf newRel bw pwr snr ndD) .relative_frequency =
      (if DV.neZero newRel then some newRel
       else dict_find m .relative_frequency) ∧
    dict_find (assembleMeta m newCf newRel bw pwr snr ndD) .center_frequency =
      some newCf := by
  simp only [assembleMeta, ieeeNeNan, if_true]
  cases hb : DV.neZero newRel with
  | true =>
    simp only [hb, if_true]
    constructor
    · rw [dict_find_add_ne _ _ _ _ (by decide), dict_find_add_ne _ _ _ _ (by decide),
        dict_find_add_ne _ _ _ _ (by decide), dict_find_add_same]
    · rw [dict_find_add_ne _ _ _ _ (by decide), dict_find_add_ne _ _ _ _ (by decide),
        dict_find_add_ne _ _ _ _ (by decide), dict_find_add_ne _ _ _ _ (by decide),
        dict_find_add_same]
  | false =>
    simp only [hb, Bool.false_eq_true, if_false]
    constructor
    · rw [dict_find_add_ne _ _ _ _ (by decide), dict_find_add_ne _ _ _ _ (by decide),
        dict_find_add_ne _ _ _ _ (by decide), dict_find_add_ne _ _ _ _ (by decide)]
    · rw [dict_find_add_ne _ _ _ _ (by decide), dict_find_add_ne _ _ _ _ (by decide),
        dict_find_add_ne _ _ _ _ (by decide), dict_find_add_same]

/-- Claim C9 (amended): `center_frequency` is always updated by the Hz
correction.  `relative_frequency` is re-added (with value original +
correction) only when BOTH the original value is nonzero (IEEE `!= 0`, so
also when NaN) AND the UPDATED value is still nonzero; when the original
value is absent or zero, or when the correction exactly cancels the original
value to 0, the original binding is left unchanged. -/
theorem relative_frequency_update (cfg : Cfg) (g : Oracle) (m : Dict)
    (data : List CplxD) (_hN : 4 ≤ data.length) :
    (DV.neZero (relOf m) = true →
      DV.neZero (DV.add (relOf m) (corrOf cfg g m data)) = true →
      dict_find (outMetaOf cfg g m data) .relative_frequency =
        some (DV.add (relOf m) (corrOf cfg g m data))) ∧
    ((DV.neZero (relOf m) = false ∨
      DV.neZero (DV.add (relOf m) (corrOf cfg g m data)) = false) →
      dict_find (outMetaOf cfg g m data) .relative_frequency =
        dict_find m .relative_frequency) ∧
    dict_find (outMetaOf cfg g m data) .center_frequency =
      some (DV.add (cfOf m) (corrOf cfg g m data)) := by
  obtain ⟨hrel, hcf⟩ := assembleMeta_find_rel m (newCfOf cfg g m data)
    (newRelVal (relOf m) (corrOf cfg g m data))
    (bwOf g m data) (pwrOf cfg g m data) (snrOf cfg g m data) (ndOf m)
  refine ⟨?_, ?_, ?_⟩
  · intro h1 h2
    have hval : newRelVal (relOf m) (corrOf cfg g m data)
        = DV.add (relOf m) (corrOf cfg g m data) := by
      rw [newRelVal, if_pos h1]
    rw [outMetaOf, hrel, hval, if_pos h2]
  · intro hcase
    rcases hcase with h1 | h2
    · have hval : newRelVal (relOf m) (corrOf cfg g m data) = relOf m := by
        rw [newRelVal]
        simp [h1]
      rw [outMetaOf, hrel, hval, h1]
      simp
    · cases h1 : DV.neZero (relOf m) with
      | false =>
        have hval : newRelVal (relOf m) (corrOf cfg g m data) = relOf m := by
          rw [newRelVal]
          simp [h1]
        rw [outMetaOf, hrel, hval, h1]
        simp
      | true =>
        have hval : newRelVal (relOf m) (corrOf cfg g m data)
            = DV.add (relOf m) (corrOf cfg g m data) := by
          rw [newRelVal, if_pos h1]
        rw [outMetaOf, hrel, hval, h2]
        simp
  · rw [outMetaOf, hcf, newCfOf]

/-- Witness for the amended C9: on a valid burst with no original
`relative_frequency`, the output `center_frequency` is the original plus the
correction. -/
theorem relative_frequency_update_witness :
    4 ≤ data4.length ∧
    dict_find (outMetaOf cfgRms testOracle mdBasic data4) .center_frequency
      = some (DV.add (cfOf mdBasic) (corrOf cfgRms testOracle mdBasic data4)) :=
  ⟨by decide, (relative_frequency_update cfgRms testOracle mdBasic data4 (by decide)).2.2⟩

/-- Counterexample to claim C9: burst with `relative_frequency = -10` present
(nonzero) and a coercion correction of exactly +10 Hz.  The claim says the
output `relative_frequency` is updated by adding the correction (giving 0),
but the code re-tests the ALREADY-UPDATED value at line 299, so the output
metadata keeps the stale original value -10. -/
theorem relative_frequency_cancellation :
    corrOf cfgCoerce110 testOracle mdRelCancel data4 = some 10 ∧
    dict_find mdRelCancel .relative_frequency = some (some (-10)) ∧
    dict_find (outMetaOf cfgCoerce110 testOracle mdRelCancel data4) .relative_frequency
      = some (some (-10)) ∧
    ¬ dict_find (outMetaOf cfgCoerce110 testOracle mdRelCancel data4) .relative_frequency
      = some (DV.add (some (-10)) (corrOf cfgCoerce110 testOracle mdRelCancel data4)) := by
  have hcf : cfOf mdRelCancel = some 100 := rfl
  have hfs : fsOf mdRelCancel = some 1000 := rfl
  have hrel : relOf mdRelCancel = some (-10) := rfl
  have hprim : primaryShiftOf cfgCoerce110 testOracle mdRelCancel data4 = some 0 := rfl
  have hshift : totalShiftOf cfgCoerce110 testOracle mdRelCancel data4 = some (1 / 100) := by
    rw [totalShiftOf, hprim, hcf, hfs]
    rw [appliedShift]
    norm_num [DV.mul, DV.add, coerce_frequency, fdiv, cfgCoerce110]
  have hcorr : corrOf cfgCoerce110 testOracle mdRelCancel data4 = some 10 := by
    rw [corrOf, hshift, hfs]
    norm_num [DV.mul]
  have hfindm : dict_find mdRelCancel .relative_frequency = some (some (-10)) := rfl
  have hnew : newRelVal (relOf mdRelCancel) (corrOf cfgCoerce110 testOracle mdRelCancel data4)
      = some 0 := by
    rw [hrel, hcorr, newRelVal]
    norm_num [DV.neZero, DV.add]
  obtain ⟨hfind, _⟩ := assembleMeta_find_rel mdRelCancel
    (newCfOf cfgCoerce110 testOracle mdRelCancel data4)
    (newRelVal (relOf mdRelCancel) (corrOf cfgCoerce110 testOracle mdRelCancel data4))
    (bwOf testOracle mdRelCancel data4)
    (pwrOf cfgCoerce110 testOracle mdRelCancel data4)
    (snrOf cfgCoerce110 testOracle mdRelCancel data4)
    (ndOf mdRelCancel)
  have hout : dict_find (outMetaOf cfgCoerce110 testOracle mdRelCancel data4) .relative_frequency
      = some (some (-10)) := by
    rw [outMetaOf, hfind, hnew]
    simp only [DV.neZero]
    norm_num
    exact hfindm
  refine ⟨hcorr, hfindm, hout, ?_⟩
  rw [hout, hcorr]
  simp only [DV.add]
  norm_num

/-- Claim C1 is violated by the code: with `noise_density` ABSENT from the
input metadata (so `noise_density_db` defaults to NaN), the output metadata on
the corrected channel still receives BOTH the `pwr_db` and `snr_db` keys,
because the guard `noise_density_db != NAN` at line 305 is an IEEE comparison
with NaN and is therefore always true.  The spec (and the clear intent of the
guard) is that neither key is emitted in this case. -/
theorem noise_density_absent_keys_still_added :
    dict_has_key mdBasic .noise_density = false ∧
    ndOf mdBasic = none ∧
    ieeeNeNan (ndOf mdBasic) = true ∧
    dict_has_key (outMetaOf cfgRms testOracle mdBasic data4) .pwr_db = true ∧
    dict_has_key (outMetaOf cfgRms testOracle mdBasic data4) .snr_db = true := by
  refine ⟨rfl, rfl, rfl, ?_, ?_⟩ <;> rfl
